import Mathlib

/-!
Verification of the IRC transport core of the `platform` repository
(`src/irc/message.rs`): the wire-message codec (`Message::string`,
`Message::from_string`), the outbound reply batcher (`Reply::strings`)
and the receive-buffer framer (`Request::size`, `Request::valid`,
`Request::string`, `Request::messages`, `Request::clear_data`).

Rust strings are modelled as lists of characters (`Str`); byte lengths
(`as_bytes().len()`) are modelled by `utf8Len`, summing the UTF-8 size
of each character exactly as the Rust `char::len_utf8` computes it.
The fixed receive buffer is a list of byte values; the frame size limit
`BUFFER_SIZE` (declared outside the sources in this file) is kept as an
explicit parameter `B` of the functions that use it.

Methods taking `&mut self` are modelled as functions returning a pair
(result, updated receiver); the `&self` method `Reply::strings` is a
pure function of the receiver.
-/

/-- Rust `String` contents, modelled as the list of its characters. -/
abbrev Str := List Char

/-- Convenience conversion from a Lean string literal. -/
def str (s : String) : Str := s.data

/-- Number of bytes of the UTF-8 encoding of one character
(Rust `char::len_utf8`). -/
def charSize (c : Char) : Nat :=
  if c.toNat < 128 then 1
  else if c.toNat < 2048 then 2
  else if c.toNat < 65536 then 3
  else 4

/-- Byte length of the UTF-8 encoding of a string
(Rust `str::as_bytes().len()`). -/
def utf8Len : Str → Nat
  | [] => 0
  | c :: s => charSize c + utf8Len s

/-- Rust `str::split(' ')`: split at every single space; a leading,
trailing or doubled space yields an empty piece, and the empty string
yields the single piece `[]`. -/
def splitSpace : Str → List Str
  | [] => [[]]
  | c :: rest =>
    if c = ' ' then [] :: splitSpace rest
    else (c :: (splitSpace rest).headD []) :: (splitSpace rest).tail

/-- Concatenate pieces, appending one space after each piece.  This is
exactly what the trailing-parameter accumulation loop of
`Message::from_string` builds. -/
def joinSp : List Str → Str
  | [] => []
  | t :: ts => t ++ [' '] ++ joinSp ts

/-- Concatenation of parameters, each preceded by one space: the shape
`Message::string` produces for space-free parameters. -/
def preJoin : List Str → Str
  | [] => []
  | p :: ps => ' ' :: p ++ preJoin ps

/-- Rust `struct Message { command, parameters, prefix }`.  The field named
`prefix` in the source is called `pfx` here because its source name is a
reserved word in Lean. -/
structure Message where
  command : Str
  parameters : List Str
  pfx : Str
deriving DecidableEq

/-- Source `Message::add_parameter`. -/
def Message.add_parameter (m : Message) (p : Str) : Message :=
  { m with parameters := m.parameters ++ [p] }

/-- Source `Message::set_command`. -/
def Message.set_command (m : Message) (c : Str) : Message :=
  { m with command := c }

/-- The parameter loop of `Message::string`: each parameter is preceded
by a space; the first parameter containing a space is emitted with a
leading colon and the loop `break`s. -/
def serializeParams : List Str → Str
  | [] => []
  | p :: ps => if ' ' ∈ p then ' ' :: ':' :: p else (' ' :: p) ++ serializeParams ps

/-- Source `Message::string`: optional `:prefix `, then the command, then the
parameters, then CRLF. -/
def Message.string (m : Message) : Str :=
  (if m.pfx ≠ [] then ':' :: m.pfx ++ [' '] else []) ++
    m.command ++ serializeParams m.parameters ++ ['\r', '\n']

/-- The four mutable locals of `Message::from_string`. -/
structure ParseSt where
  pfx : Str
  command : Str
  parameters : List Str
  last_parameter : Str
deriving DecidableEq

/-- One iteration of the `for (i, p) in string.split(' ').enumerate()`
loop of `Message::from_string`. -/
def parseStep (st : ParseSt) (ip : Nat × Str) : ParseSt :=
  if ip.1 = 0 then
    if ip.2.head? = some ':' then { st with pfx := ip.2.tail }
    else { st with command := ip.2 }
  else if ip.1 = 1 ∧ st.pfx ≠ [] then { st with command := ip.2 }
  else if st.last_parameter ≠ [] then
    { st with last_parameter := st.last_parameter ++ ip.2 ++ [' '] }
  else if ip.2.head? = some ':' then
    { st with last_parameter := ip.2.tail ++ [' '] }
  else { st with parameters := st.parameters ++ [ip.2] }

/-- The loop body of `Message::from_string` for any iteration whose
index plays no role (every iteration past the prefix/command tokens). -/
def paramStep (st : ParseSt) (p : Str) : ParseSt :=
  if st.last_parameter ≠ [] then
    { st with last_parameter := st.last_parameter ++ p ++ [' '] }
  else if p.head? = some ':' then
    { st with last_parameter := p.tail ++ [' '] }
  else { st with parameters := st.parameters ++ [p] }

/-- Source `Message::from_string`. -/
def Message.from_string (s : Str) : Message :=
  let st := (List.enum (splitSpace s)).foldl parseStep ⟨[], [], [], []⟩
  if st.last_parameter ≠ [] then
    ⟨st.command, st.parameters ++ [st.last_parameter.dropLast], st.pfx⟩
  else
    ⟨st.command, st.parameters, st.pfx⟩

/-- Source `Message::new`. -/
def Message.new : Message := ⟨[], [], []⟩

/-- Rust `std::io::ErrorKind`, restricted to the single value the source
produces. -/
inductive ErrorKind where
  | invalidData
deriving DecidableEq

/-- Rust `struct Reply { messages: Vec<Message> }`. -/
structure Reply where
  messages : List Message
deriving DecidableEq

/-- Source `Reply::new`. -/
def Reply.new : Reply := ⟨[]⟩

/-- Source `Reply::add_message`. -/
def Reply.add_message (r : Reply) (m : Message) : Reply :=
  ⟨r.messages ++ [m]⟩

/-- Source `Reply::add_messages` (appends, preserving order). -/
def Reply.add_messages (r : Reply) (ms : List Message) : Reply :=
  ⟨r.messages ++ ms⟩

/-- The loop of `Reply::strings`, with the accumulated frames `data`
and the current frame `buffer` made explicit. -/
def stringsAux (B : Nat) : List Message → List Str → Str → Except ErrorKind (List Str)
  | [], data, buffer =>
    Except.ok (if buffer = [] then data else data ++ [buffer])
  | m :: rest, data, buffer =>
    if B < utf8Len m.string then Except.error ErrorKind.invalidData
    else if utf8Len buffer + utf8Len m.string ≤ B then
      stringsAux B rest data (buffer ++ m.string)
    else
      stringsAux B rest (data ++ [buffer]) m.string

/-- Source `Reply::strings`, parametrised by the frame size limit `B`
(the constant `BUFFER_SIZE` in the source). -/
def Reply.strings (B : Nat) (r : Reply) : Except ErrorKind (List Str) :=
  stringsAux B r.messages [] []

/-- Source `Reply::strings` as a state-passing method call: it takes `&self`,
so the receiver after the call is the receiver before the call. -/
def Reply.stringsM (B : Nat) (r : Reply) : Except ErrorKind (List Str) × Reply :=
  (Reply.strings B r, r)

/-- The frame obtained by concatenating the serializations of a group
of messages. -/
def frameOf (g : List Message) : Str :=
  (g.map Message.string).flatten

/-- Rust `str::split("\r\n")`: split at every non-overlapping CRLF,
scanning left to right. -/
def splitCRLF : Str → List Str
  | [] => [[]]
  | [c] => [[c]]
  | c :: d :: rest =>
    if c = '\r' ∧ d = '\n' then [] :: splitCRLF rest
    else (c :: (splitCRLF (d :: rest)).headD []) :: (splitCRLF (d :: rest)).tail

/-- Whether a byte is a UTF-8 continuation byte (0x80–0xBF). -/
def isCont (b : Nat) : Bool := 128 ≤ b ∧ b ≤ 191

/-- Validity range for the first continuation byte of a 3-byte
sequence, by leading byte (excludes overlong forms and surrogates),
as in Rust `str::from_utf8`. -/
def cont3Ok (b b1 : Nat) : Bool :=
  if b = 224 then 160 ≤ b1 ∧ b1 ≤ 191
  else if b = 237 then 128 ≤ b1 ∧ b1 ≤ 159
  else 128 ≤ b1 ∧ b1 ≤ 191

/-- Validity range for the first continuation byte of a 4-byte
sequence, by leading byte (excludes overlong forms and values above
U+10FFFF), as in Rust `str::from_utf8`. -/
def cont4Ok (b b1 : Nat) : Bool :=
  if b = 240 then 144 ≤ b1 ∧ b1 ≤ 191
  else if b = 244 then 128 ≤ b1 ∧ b1 ≤ 143
  else 128 ≤ b1 ∧ b1 ≤ 191

/-- Strict UTF-8 decoding (Rust `str::from_utf8`): `none` exactly on
invalid input. -/
def utf8Decode : List Nat → Option Str
  | [] => some []
  | b :: rest =>
    if b ≤ 127 then
      match utf8Decode rest with
      | some s => some (Char.ofNat b :: s)
      | none => none
    else if 194 ≤ b ∧ b ≤ 223 then
      match rest with
      | b1 :: rest2 =>
        if isCont b1 then
          match utf8Decode rest2 with
          | some s => some (Char.ofNat ((b - 192) * 64 + (b1 - 128)) :: s)
          | none => none
        else none
      | [] => none
    else if 224 ≤ b ∧ b ≤ 239 then
      match rest with
      | b1 :: b2 :: rest3 =>
        if cont3Ok b b1 && isCont b2 then
          match utf8Decode rest3 with
          | some s =>
            some (Char.ofNat ((b - 224) * 4096 + (b1 - 128) * 64 + (b2 - 128)) :: s)
          | none => none
        else none
      | _ => none
    else if 240 ≤ b ∧ b ≤ 244 then
      match rest with
      | b1 :: b2 :: b3 :: rest4 =>
        if cont4Ok b b1 && isCont b2 && isCont b3 then
          match utf8Decode rest4 with
          | some s =>
            some (Char.ofNat
              ((b - 240) * 262144 + (b1 - 128) * 4096 + (b2 - 128) * 64 + (b3 - 128)) :: s)
          | none => none
        else none
      | _ => none
    else none

/-- Offset of the first zero byte, or the length of the list if there is
none: the value the scanning loop of `Request::size` computes. -/
def firstZero : List Nat → Nat
  | [] => 0
  | c :: rest => if c = 0 then 0 else firstZero rest + 1

/-- Rust `struct Request { data, messages, size }`.  `data` is the fixed
`[u8; BUFFER_SIZE]` receive buffer (its length is the capacity),
`messages` the parsed-message cache and `size` the cached logical
size (0 meaning "not yet computed"). -/
structure Request where
  data : List Nat
  messages : List Message
  size : Nat
deriving DecidableEq

/-- Source `Request::clear_data`: zero the buffer, drop both caches. -/
def Request.clear_data (r : Request) : Request :=
  ⟨List.replicate r.data.length 0, [], 0⟩

/-- Source `Request::size` (named `sizeM` because `size` is the field): scan
for the first zero byte if the cache is unset, else return the cache. -/
def Request.sizeM (r : Request) : Nat × Request :=
  if r.size = 0 then (firstZero r.data, { r with size := firstZero r.data })
  else (r.size, r)

/-- Source `Request::string`: UTF-8 decode of the meaningful bytes; a decode
failure yields the empty string. -/
def Request.stringM (r : Request) : Str × Request :=
  match utf8Decode ((Request.sizeM r).2.data.take (Request.sizeM r).1) with
  | some s => (s, (Request.sizeM r).2)
  | none => ([], (Request.sizeM r).2)

/-- Source `Request::messages` (named `messagesM` because `messages` is the
field): split the decoded text on CRLF, parse every non-empty segment,
cache the result. -/
def Request.messagesM (r : Request) : List Message × Request :=
  if r.messages.isEmpty then
    let msgs := ((splitCRLF (Request.stringM r).1).filter (fun s => s ≠ [])).map
      Message.from_string
    (msgs, { (Request.stringM r).2 with messages := msgs })
  else (r.messages, r)

/-- Source `Request::valid`: logical size above 2 and the two buffer bytes
just before the logical size are CR then LF. -/
def Request.valid (r : Request) : Bool × Request :=
  (decide (2 < (Request.sizeM r).1) &&
     decide ((Request.sizeM r).2.data.getD ((Request.sizeM r).1 - 1) 0 = 10) &&
     decide ((Request.sizeM r).2.data.getD ((Request.sizeM r).1 - 2) 0 = 13),
   (Request.sizeM r).2)

/-- Source `Request::new` with a given capacity (`BUFFER_SIZE` in the source). -/
def Request.new (B : Nat) : Request :=
  ⟨List.replicate B 0, [], 0⟩

/-- A message whose serialization is `PING abc\r\n` (10 bytes). -/
def pingMsg : Message := ⟨str ("PING"), [str ("abc")], []⟩

/-- A message whose serialization is 60 bytes long. -/
def msg60 : Message := ⟨List.replicate 58 'A', [], []⟩

/-- A message whose serialization is `LONG\r\n` (6 bytes). -/
def longMsg : Message := ⟨str ("LONG"), [], []⟩

deriving instance DecidableEq for Except

theorem charSize_pos (c : Char) : 0 < charSize c := by
  unfold charSize
  split
  · omega
  split
  · omega
  split <;> omega

theorem utf8Len_append (a b : Str) : utf8Len (a ++ b) = utf8Len a + utf8Len b := by
  induction a with
  | nil => simp [utf8Len]
  | cons c a ih => simp [utf8Len, ih]; omega

theorem utf8Len_eq_zero {s : Str} (h : utf8Len s = 0) : s = [] := by
  cases s with
  | nil => rfl
  | cons c s =>
    exfalso
    have := charSize_pos c
    simp [utf8Len] at h
    omega

theorem splitSpace_ne_nil (s : Str) : splitSpace s ≠ [] := by
  cases s with
  | nil => simp [splitSpace]
  | cons c rest =>
    unfold splitSpace
    split <;> simp

theorem splitSpace_cons_space (rest : Str) :
    splitSpace (' ' :: rest) = [] :: splitSpace rest := by
  simp [splitSpace]

theorem splitSpace_cons_ne (c : Char) (rest : Str) (h : c ≠ ' ') :
    splitSpace (c :: rest) =
      (c :: (splitSpace rest).headD []) :: (splitSpace rest).tail := by
  simp [splitSpace, h]

theorem splitSpace_no_space (s : Str) (h : ' ' ∉ s) : splitSpace s = [s] := by
  induction s with
  | nil => rfl
  | cons c rest ih =>
    have hc : c ≠ ' ' := fun hc => h (hc ▸ List.mem_cons_self c rest)
    have hr : ' ' ∉ rest := fun hr => h (List.mem_cons_of_mem c hr)
    rw [splitSpace_cons_ne c rest hc, ih hr]
    rfl

theorem splitSpace_append (xs ys : Str) (h : ' ' ∉ xs) :
    splitSpace (xs ++ ' ' :: ys) = xs :: splitSpace ys := by
  induction xs with
  | nil => simpa using splitSpace_cons_space ys
  | cons c xs ih =>
    have hc : c ≠ ' ' := fun hc => h (hc ▸ List.mem_cons_self c xs)
    have hx : ' ' ∉ xs := fun hx => h (List.mem_cons_of_mem c hx)
    rw [List.cons_append, splitSpace_cons_ne c _ hc, ih hx]
    rfl

theorem joinSp_splitSpace (s : Str) : joinSp (splitSpace s) = s ++ [' '] := by
  induction s with
  | nil => rfl
  | cons c rest ih =>
    by_cases hc : c = ' '
    · subst hc
      rw [splitSpace_cons_space, joinSp]
      simp [joinSp, ih]
    · rw [splitSpace_cons_ne c rest hc]
      obtain ⟨t, ts, hts⟩ := List.exists_cons_of_ne_nil (splitSpace_ne_nil rest)
      rw [hts]
      rw [hts] at ih
      simp only [List.headD_cons, List.tail_cons, joinSp] at ih ⊢
      simp [← ih]

theorem paramStep_pfx (st : ParseSt) (p : Str) : (paramStep st p).pfx = st.pfx := by
  unfold paramStep
  split
  · rfl
  split <;> rfl

theorem parseStep_ge_two (st : ParseSt) (k : Nat) (p : Str) (h : 2 ≤ k) :
    parseStep st (k, p) = paramStep st p := by
  have h0 : ¬(k = 0) := by omega
  have h1 : ¬(k = 1 ∧ st.pfx ≠ []) := by
    rintro ⟨h1, _⟩
    omega
  simp only [parseStep, paramStep, h0, h1, if_false]

theorem parseStep_one_noPfx (st : ParseSt) (p : Str) (h : st.pfx = []) :
    parseStep st (1, p) = paramStep st p := by
  simp [parseStep, paramStep, h]

theorem foldl_enumFrom_ge (ts : List Str) :
    ∀ (k : Nat) (st : ParseSt), 2 ≤ k →
      (List.enumFrom k ts).foldl parseStep st = ts.foldl paramStep st := by
  induction ts with
  | nil => intro k st _; rfl
  | cons t ts ih =>
    intro k st hk
    rw [List.enumFrom_cons, List.foldl_cons, List.foldl_cons,
      parseStep_ge_two st k t hk]
    exact ih (k + 1) _ (by omega)

theorem foldl_enumFrom_one (ts : List Str) (st : ParseSt) (h : st.pfx = []) :
    (List.enumFrom 1 ts).foldl parseStep st = ts.foldl paramStep st := by
  cases ts with
  | nil => rfl
  | cons t ts =>
    rw [List.enumFrom_cons, List.foldl_cons, List.foldl_cons,
      parseStep_one_noPfx st t h]
    exact foldl_enumFrom_ge ts 2 _ le_rfl

theorem foldl_paramStep_plain (ps : List Str) :
    ∀ (px cmd : Str) (acc : List Str), (∀ p ∈ ps, p.head? ≠ some ':') →
      ps.foldl paramStep ⟨px, cmd, acc, []⟩ = ⟨px, cmd, acc ++ ps, []⟩ := by
  induction ps with
  | nil => intro px cmd acc _; simp
  | cons p ps ih =>
    intro px cmd acc h
    have hp : p.head? ≠ some ':' := h p (List.mem_cons_self p ps)
    have hps : ∀ q ∈ ps, q.head? ≠ some ':' := fun q hq => h q (List.mem_cons_of_mem p hq)
    rw [List.foldl_cons]
    have hstep : paramStep ⟨px, cmd, acc, []⟩ p = ⟨px, cmd, acc ++ [p], []⟩ := by
      simp [paramStep, hp]
    rw [hstep, ih px cmd (acc ++ [p]) hps]
    simp

theorem foldl_paramStep_trailing (ts : List Str) :
    ∀ (st : ParseSt), st.last_parameter ≠ [] →
      ts.foldl paramStep st = { st with last_parameter := st.last_parameter ++ joinSp ts } := by
  induction ts with
  | nil => intro st _; simp [joinSp]
  | cons t ts ih =>
    intro st h
    rw [List.foldl_cons]
    have hstep : paramStep st t = { st with last_parameter := st.last_parameter ++ t ++ [' '] } := by
      simp [paramStep, h]
    rw [hstep, ih _ (by simp)]
    simp [joinSp]

theorem serializeParams_plain (ps : List Str) (h : ∀ p ∈ ps, ' ' ∉ p) :
    serializeParams ps = preJoin ps := by
  induction ps with
  | nil => rfl
  | cons p ps ih =>
    have hp : ' ' ∉ p := h p (List.mem_cons_self p ps)
    have hps : ∀ q ∈ ps, ' ' ∉ q := fun q hq => h q (List.mem_cons_of_mem p hq)
    simp only [serializeParams, preJoin, hp, if_false, ih hps]

theorem serializeParams_split (front : List Str) (l : Str) (rest : List Str)
    (h : ∀ p ∈ front, ' ' ∉ p) (hl : ' ' ∈ l) :
    serializeParams (front ++ l :: rest) = preJoin front ++ ' ' :: ':' :: l := by
  induction front with
  | nil => simp [serializeParams, preJoin, hl]
  | cons p front ih =>
    have hp : ' ' ∉ p := h p (List.mem_cons_self p front)
    have hf : ∀ q ∈ front, ' ' ∉ q := fun q hq => h q (List.mem_cons_of_mem p hq)
    rw [List.cons_append]
    show (if ' ' ∈ p then ' ' :: ':' :: p else (' ' :: p) ++ serializeParams (front ++ l :: rest)) = _
    rw [if_neg hp, ih hf]
    simp [preJoin]

theorem splitSpace_cmd_preJoin (ps : List Str) :
    ∀ (cmd : Str), ' ' ∉ cmd → (∀ p ∈ ps, ' ' ∉ p) →
      splitSpace (cmd ++ preJoin ps) = cmd :: ps := by
  induction ps with
  | nil =>
    intro cmd hc _
    simp [preJoin, splitSpace_no_space cmd hc]
  | cons p ps ih =>
    intro cmd hc h
    have hp : ' ' ∉ p := h p (List.mem_cons_self p ps)
    have hps : ∀ q ∈ ps, ' ' ∉ q := fun q hq => h q (List.mem_cons_of_mem p hq)
    have : cmd ++ preJoin (p :: ps) = cmd ++ ' ' :: (p ++ preJoin ps) := by
      simp [preJoin]
    rw [this, splitSpace_append cmd _ hc, ih p hp hps]

theorem splitSpace_cmd_trailing (front : List Str) :
    ∀ (cmd : Str) (l : Str), ' ' ∉ cmd → (∀ p ∈ front, ' ' ∉ p) →
      splitSpace (cmd ++ (preJoin front ++ ' ' :: ':' :: l)) =
        cmd :: (front ++ splitSpace (':' :: l)) := by
  induction front with
  | nil =>
    intro cmd l hc _
    simp only [preJoin, List.nil_append]
    rw [splitSpace_append cmd _ hc]
  | cons p front ih =>
    intro cmd l hc h
    have hp : ' ' ∉ p := h p (List.mem_cons_self p front)
    have hf : ∀ q ∈ front, ' ' ∉ q := fun q hq => h q (List.mem_cons_of_mem p hq)
    have hsh : cmd ++ (preJoin (p :: front) ++ ' ' :: ':' :: l) =
        cmd ++ ' ' :: (p ++ (preJoin front ++ ' ' :: ':' :: l)) := by
      simp [preJoin]
    rw [hsh, splitSpace_append cmd _ hc, ih p l hp hf]
    simp

theorem splitSpace_colon_cons (l : Str) :
    splitSpace (':' :: l) =
      (':' :: (splitSpace l).headD []) :: (splitSpace l).tail := by
  exact splitSpace_cons_ne ':' l (by decide)

theorem paramPhase (px cmd : Str) (params : List Str)
    (hf : ∀ p ∈ params.dropLast, ' ' ∉ p ∧ p.head? ≠ some ':')
    (hl : ∀ l, params.getLast? = some l → ' ' ∉ l → l.head? ≠ some ':')
    (hc : ' ' ∉ cmd) :
    ∃ ts : List Str, splitSpace (cmd ++ serializeParams params) = cmd :: ts ∧
      ((ts.foldl paramStep ⟨px, cmd, [], []⟩ = ⟨px, cmd, params, []⟩) ∨
       (∃ front l, params = front ++ [l] ∧
         ts.foldl paramStep ⟨px, cmd, [], []⟩ = ⟨px, cmd, front, l ++ [' ']⟩)) := by
  rcases List.eq_nil_or_concat params with hnil | ⟨front, l, hfl⟩
  · subst hnil
    refine ⟨[], ?_, Or.inl ?_⟩
    · simp [serializeParams, splitSpace_no_space cmd hc]
    · rfl
  · rw [List.concat_eq_append] at hfl
    subst hfl
    have hfront : ∀ p ∈ front, ' ' ∉ p ∧ p.head? ≠ some ':' := by
      intro p hp
      exact hf p (by rw [List.dropLast_concat]; exact hp)
    have hfront1 : ∀ p ∈ front, ' ' ∉ p := fun p hp => (hfront p hp).1
    have hfront2 : ∀ p ∈ front, p.head? ≠ some ':' := fun p hp => (hfront p hp).2
    by_cases hsp : ' ' ∈ l
    · -- the last parameter contains a space: emitted as a trailing parameter
      obtain ⟨l0, ls, hls⟩ := List.exists_cons_of_ne_nil (splitSpace_ne_nil l)
      refine ⟨front ++ (':' :: l0) :: ls, ?_, Or.inr ⟨front, l, rfl, ?_⟩⟩
      · rw [serializeParams_split front l [] hfront1 hsp,
          splitSpace_cmd_trailing front cmd l hc hfront1,
          splitSpace_colon_cons, hls]
        simp
      · rw [List.foldl_append, foldl_paramStep_plain front px cmd [] hfront2,
          List.foldl_cons]
        have hstep : paramStep ⟨px, cmd, [] ++ front, []⟩ (':' :: l0) =
            ⟨px, cmd, front, l0 ++ [' ']⟩ := by
          simp [paramStep]
        rw [hstep, foldl_paramStep_trailing ls _ (by simp)]
        have : (l0 ++ [' ']) ++ joinSp ls = l ++ [' '] := by
          have hj := joinSp_splitSpace l
          rw [hls] at hj
          simp only [joinSp] at hj
          simpa using hj
        simp only [this]
    · -- every parameter is space-free: all emitted plainly
      have hlast : l.head? ≠ some ':' := hl l (List.getLast?_concat front) hsp
      have hall1 : ∀ p ∈ front ++ [l], ' ' ∉ p := by
        intro p hp
        rcases List.mem_append.mp hp with h | h
        · exact hfront1 p h
        · simp at h
          subst h
          exact hsp
      have hall2 : ∀ p ∈ front ++ [l], p.head? ≠ some ':' := by
        intro p hp
        rcases List.mem_append.mp hp with h | h
        · exact hfront2 p h
        · simp at h
          subst h
          exact hlast
      refine ⟨front ++ [l], ?_, Or.inl ?_⟩
      · rw [serializeParams_plain _ hall1, splitSpace_cmd_preJoin _ cmd hc hall1]
      · rw [foldl_paramStep_plain _ px cmd [] hall2]
        simp

theorem dropLast_crlf (X : Str) : (X ++ ['\r', '\n']).dropLast.dropLast = X := by
  have h : X ++ ['\r', '\n'] = (X ++ ['\r']) ++ ['\n'] := by simp
  rw [h, List.dropLast_concat, List.dropLast_concat]

theorem string_dropLast (m : Message) :
    m.string.dropLast.dropLast =
      (if m.pfx ≠ [] then ':' :: m.pfx ++ [' '] else []) ++
        m.command ++ serializeParams m.parameters := by
  unfold Message.string
  exact dropLast_crlf _

/-- C2 (amended): for a message whose prefix and command contain no
space, whose command does not begin with a colon when the prefix is
empty, none of whose parameters before the last contains a space or
begins with a colon, and whose last parameter does not begin with a
colon unless it contains a space, parsing the serialization (with the
CRLF terminator removed, as the framer does) reproduces the original
command and parameters exactly. -/
theorem message_roundtrip (m : Message)
    (hpre : ' ' ∉ m.pfx)
    (hcmdsp : ' ' ∉ m.command)
    (hcmdc : m.pfx = [] → m.command.head? ≠ some ':')
    (hf : ∀ p ∈ m.parameters.dropLast, ' ' ∉ p ∧ p.head? ≠ some ':')
    (hl : ∀ l, m.parameters.getLast? = some l → ' ' ∉ l → l.head? ≠ some ':') :
    (Message.from_string (m.string.dropLast.dropLast)).command = m.command ∧
    (Message.from_string (m.string.dropLast.dropLast)).parameters = m.parameters := by
  obtain ⟨ts, hts, hfold⟩ := paramPhase m.pfx m.command m.parameters hf hl hcmdsp
  rw [string_dropLast m]
  by_cases hpfx : m.pfx = []
  · have hcore :
        ((if m.pfx ≠ [] then ':' :: m.pfx ++ [' '] else []) ++
          m.command ++ serializeParams m.parameters) =
          m.command ++ serializeParams m.parameters := by
      simp [hpfx]
    rw [hcore]
    simp only [Message.from_string]
    rw [hts, List.enum_cons, List.foldl_cons]
    have hstep0 : parseStep ⟨[], [], [], []⟩ (0, m.command) = ⟨[], m.command, [], []⟩ := by
      simp [parseStep, hcmdc hpfx]
    rw [hstep0, foldl_enumFrom_one ts _ rfl]
    rw [hpfx] at hfold
    rcases hfold with hst | ⟨front, l, hparams, hst⟩
    · rw [hst]
      simp
    · rw [hst, hparams]
      simp [List.dropLast_concat]
  · have hcore :
        ((if m.pfx ≠ [] then ':' :: m.pfx ++ [' '] else []) ++
          m.command ++ serializeParams m.parameters) =
          (':' :: m.pfx) ++ ' ' :: (m.command ++ serializeParams m.parameters) := by
      simp [hpfx]
    rw [hcore]
    simp only [Message.from_string]
    rw [splitSpace_append _ _ (by simp [hpre]), hts, List.enum_cons, List.foldl_cons]
    have hstep0 : parseStep ⟨[], [], [], []⟩ (0, ':' :: m.pfx) = ⟨m.pfx, [], [], []⟩ := by
      simp [parseStep]
    rw [hstep0, List.enumFrom_cons, List.foldl_cons]
    have hstep1 : parseStep ⟨m.pfx, [], [], []⟩ (1, m.command) = ⟨m.pfx, m.command, [], []⟩ := by
      simp [parseStep, hpfx]
    rw [hstep1, foldl_enumFrom_ge ts 2 _ le_rfl]
    rcases hfold with hst | ⟨front, l, hparams, hst⟩
    · rw [hst]
      simp
    · rw [hst, hparams]
      simp [List.dropLast_concat]

/-- C2 (as stated, refuted): the message with command `CMD` and single
parameter `:x` has no parameter containing a space, yet parsing its
serialization (CRLF removed) does not reproduce its parameters: the
parser strips the leading colon. -/
theorem roundtrip_claim_cex :
    (∀ p ∈ ([str (":x")] : List Str).dropLast, ' ' ∉ p) ∧
    (Message.from_string
        ((Message.string ⟨str ("CMD"), [str (":x")], []⟩).dropLast.dropLast)).command =
      str ("CMD") ∧
    (Message.from_string
        ((Message.string ⟨str ("CMD"), [str (":x")], []⟩).dropLast.dropLast)).parameters ≠
      [str (":x")] := by
  decide

/-- C6: parsing `:nick!user@host COMMAND a b :trailing words` yields
prefix `nick!user@host`, command `COMMAND` and parameters
`["a", "b", "trailing words"]`. -/
theorem parse_example :
    Message.from_string (str (":nick!user@host COMMAND a b :trailing words")) =
      ⟨str ("COMMAND"), [str ("a"), str ("b"), str ("trailing words")],
        str ("nick!user@host")⟩ := by
  decide

/-- C7: serialization always ends with CRLF, and the first parameter (in
iteration order) containing a space is emitted with a leading colon and
terminates parameter emission — every later parameter is dropped, so the
output does not depend on `rest`. -/
theorem string_emission :
    (∀ m : Message, List.IsSuffix ['\r', '\n'] m.string) ∧
    (∀ (px cmd : Str) (front : List Str) (p : Str) (rest : List Str),
      (∀ q ∈ front, ' ' ∉ q) → ' ' ∈ p →
      Message.string ⟨cmd, front ++ p :: rest, px⟩ =
        (Message.string ⟨cmd, front, px⟩).dropLast.dropLast ++
          ' ' :: ':' :: p ++ ['\r', '\n']) := by
  constructor
  · intro m
    exact ⟨(if m.pfx ≠ [] then ':' :: m.pfx ++ [' '] else []) ++
      m.command ++ serializeParams m.parameters, rfl⟩
  · intro px cmd front p rest hq hp
    rw [string_dropLast]
    simp only [Message.string]
    rw [serializeParams_split front p rest hq hp, serializeParams_plain front hq]
    simp [List.append_assoc]

theorem string_emission_witness :
    Message.string ⟨str ("A"), [str ("x")] ++ str ("b c") :: [str ("z")], []⟩ =
      (Message.string ⟨str ("A"), [str ("x")], []⟩).dropLast.dropLast ++
        ' ' :: ':' :: str ("b c") ++ ['\r', '\n'] :=
  string_emission.2 [] (str ("A")) [str ("x")] (str ("b c")) [str ("z")]
    (by decide) (by decide)

theorem message_string_ne_nil (m : Message) : m.string ≠ [] := by
  unfold Message.string
  simp

theorem frameOf_append (a b : List Message) :
    frameOf (a ++ b) = frameOf a ++ frameOf b := by
  simp [frameOf]

theorem frameOf_singleton (m : Message) : frameOf [m] = m.string := by
  simp [frameOf]

theorem frameOf_ne_nil (g : List Message) (h : g ≠ []) : frameOf g ≠ [] := by
  cases g with
  | nil => exact absurd rfl h
  | cons m g =>
    simp only [frameOf, List.map_cons, List.flatten_cons]
    intro hc
    exact message_string_ne_nil m (List.append_eq_nil.mp hc).1

theorem stringsAux_groups (B : Nat) :
    ∀ (msgs : List Message) (dgs : List (List Message)) (bg : List Message),
      (∀ m ∈ msgs, utf8Len m.string ≤ B) →
      utf8Len (frameOf bg) ≤ B →
      (∀ g ∈ dgs, g ≠ [] ∧ utf8Len (frameOf g) ≤ B) →
      ∃ gs : List (List Message),
        stringsAux B msgs (dgs.map frameOf) (frameOf bg) = Except.ok (gs.map frameOf) ∧
        gs.flatten = dgs.flatten ++ bg ++ msgs ∧
        (∀ g ∈ gs, g ≠ [] ∧ utf8Len (frameOf g) ≤ B) := by
  intro msgs
  induction msgs with
  | nil =>
    intro dgs bg _ hbg hdgs
    by_cases hbgnil : bg = []
    · subst hbgnil
      refine ⟨dgs, ?_, by simp, hdgs⟩
      simp [stringsAux, frameOf]
    · refine ⟨dgs ++ [bg], ?_, by simp, ?_⟩
      · simp [stringsAux, frameOf_ne_nil bg hbgnil]
      · intro g hg
        rcases List.mem_append.mp hg with h | h
        · exact hdgs g h
        · simp at h
          subst h
          exact ⟨hbgnil, hbg⟩
  | cons m rest ih =>
    intro dgs bg hmsgs hbg hdgs
    have hm : utf8Len m.string ≤ B := hmsgs m (List.mem_cons_self m rest)
    have hrest : ∀ q ∈ rest, utf8Len q.string ≤ B :=
      fun q h => hmsgs q (List.mem_cons_of_mem m h)
    by_cases hfit : utf8Len (frameOf bg) + utf8Len m.string ≤ B
    · obtain ⟨gs, h1, h2, h3⟩ := ih dgs (bg ++ [m]) hrest
        (by rw [frameOf_append, utf8Len_append, frameOf_singleton]; exact hfit) hdgs
      refine ⟨gs, ?_, ?_, h3⟩
      · have hunfold : stringsAux B (m :: rest) (dgs.map frameOf) (frameOf bg) =
            stringsAux B rest (dgs.map frameOf) (frameOf bg ++ m.string) := by
          simp [stringsAux, Nat.not_lt.mpr hm, hfit]
        rw [hunfold,
          show frameOf bg ++ m.string = frameOf (bg ++ [m]) from by
            rw [frameOf_append, frameOf_singleton]]
        exact h1
      · rw [h2]
        simp
    · have hbgne : bg ≠ [] := by
        intro hbgnil
        subst hbgnil
        have : ¬(utf8Len m.string ≤ B) := by simpa [frameOf, utf8Len] using hfit
        exact this hm
      obtain ⟨gs, h1, h2, h3⟩ := ih (dgs ++ [bg]) [m] hrest
        (by rw [frameOf_singleton]; exact hm)
        (by
          intro g hg
          rcases List.mem_append.mp hg with h | h
          · exact hdgs g h
          · simp at h
            subst h
            exact ⟨hbgne, hbg⟩)
      refine ⟨gs, ?_, ?_, h3⟩
      · have hunfold : stringsAux B (m :: rest) (dgs.map frameOf) (frameOf bg) =
            stringsAux B rest (dgs.map frameOf ++ [frameOf bg]) m.string := by
          simp [stringsAux, Nat.not_lt.mpr hm, hfit]
        rw [hunfold,
          show dgs.map frameOf ++ [frameOf bg] = (dgs ++ [bg]).map frameOf from by simp,
          show (m.string : Str) = frameOf [m] from (frameOf_singleton m).symm]
        exact h1
      · rw [h2]
        simp

theorem flatten_map_frameOf (gs : List (List Message)) :
    (gs.map frameOf).flatten = (gs.flatten.map Message.string).flatten := by
  induction gs with
  | nil => rfl
  | cons g gs ih => simp [frameOf, ih]

theorem foldl_add_message (ms : List Message) :
    ∀ r : Reply, (ms.foldl Reply.add_message r).messages = r.messages ++ ms := by
  induction ms with
  | nil => intro r; simp
  | cons m ms ih =>
    intro r
    rw [List.foldl_cons, ih]
    simp [Reply.add_message]

/-- C1: if every message added to the batcher serializes to at most `B`
bytes, `Reply::strings` succeeds with frames that each stay within `B`
bytes and are non-empty, whose in-order concatenation is exactly the
in-order concatenation of the individual serializations, and each of
which is the concatenation of a consecutive group of whole messages
(no message is split across two frames). -/
theorem reply_strings_packs (B : Nat) (ms : List Message)
    (h : ∀ m ∈ ms, utf8Len m.string ≤ B) :
    ∃ fs : List Str,
      Reply.strings B (ms.foldl Reply.add_message Reply.new) = Except.ok fs ∧
      fs.flatten = (ms.map Message.string).flatten ∧
      (∀ f ∈ fs, utf8Len f ≤ B ∧ f ≠ []) ∧
      ∃ gs : List (List Message), gs.flatten = ms ∧ fs = gs.map frameOf := by
  obtain ⟨gs, h1, h2, h3⟩ := stringsAux_groups B ms [] [] h (by simp [frameOf, utf8Len]) (by simp)
  simp only [List.flatten_nil, List.nil_append] at h2
  refine ⟨gs.map frameOf, ?_, ?_, ?_, gs, h2, rfl⟩
  · have hmsgs : (ms.foldl Reply.add_message Reply.new).messages = ms := by
      rw [foldl_add_message ms Reply.new]
      simp [Reply.new]
    unfold Reply.strings
    rw [hmsgs]
    exact h1
  · rw [flatten_map_frameOf gs, h2]
  · intro f hf
    obtain ⟨g, hg, rfl⟩ := List.mem_map.mp hf
    exact ⟨(h3 g hg).2, frameOf_ne_nil g (h3 g hg).1⟩

theorem reply_strings_packs_witness :
    (∀ m ∈ [pingMsg], utf8Len m.string ≤ 10) ∧
    ∃ fs : List Str,
      Reply.strings 10 ([pingMsg].foldl Reply.add_message Reply.new) = Except.ok fs ∧
      fs.flatten = ([pingMsg].map Message.string).flatten ∧
      (∀ f ∈ fs, utf8Len f ≤ 10 ∧ f ≠ []) ∧
      ∃ gs : List (List Message), gs.flatten = [pingMsg] ∧ fs = gs.map frameOf :=
  ⟨by decide, reply_strings_packs 10 [pingMsg] (by decide)⟩

theorem stringsAux_oversize (B : Nat) :
    ∀ (msgs : List Message) (data : List Str) (buffer : Str),
      (∃ m ∈ msgs, B < utf8Len m.string) →
      stringsAux B msgs data buffer = Except.error ErrorKind.invalidData := by
  intro msgs
  induction msgs with
  | nil =>
    intro data buffer h
    simp at h
  | cons m rest ih =>
    intro data buffer h
    by_cases hover : B < utf8Len m.string
    · simp [stringsAux, hover]
    · have hrest : ∃ q ∈ rest, B < utf8Len q.string := by
        rcases h with ⟨q, hq, hlen⟩
        rcases List.mem_cons.mp hq with rfl | hmem
        · exact absurd hlen hover
        · exact ⟨q, hmem, hlen⟩
      by_cases hfit : utf8Len buffer + utf8Len m.string ≤ B
      · simp [stringsAux, hover, hfit, ih _ _ hrest]
      · simp [stringsAux, hover, hfit, ih _ _ hrest]

/-- C3: if some message held by the reply serializes to more than `B`
bytes, `Reply::strings` returns `Err(InvalidData)` and hence no frames
at all. -/
theorem reply_strings_oversize (B : Nat) (r : Reply)
    (h : ∃ m ∈ r.messages, B < utf8Len m.string) :
    Reply.strings B r = Except.error ErrorKind.invalidData :=
  stringsAux_oversize B r.messages [] [] h

theorem reply_strings_oversize_witness :
    (∃ m ∈ (Reply.mk [longMsg]).messages, 4 < utf8Len m.string) ∧
    Reply.strings 4 ⟨[longMsg]⟩ = Except.error ErrorKind.invalidData :=
  ⟨by decide, reply_strings_oversize 4 ⟨[longMsg]⟩ (by decide)⟩

set_option maxRecDepth 10000 in
/-- C9: with the size limit 512 and ten messages of 60 serialized bytes
each, `Reply::strings` returns exactly the two frames made of the first
eight and the last two messages (480 and 120 bytes). -/
theorem frames_512_scenario :
    Reply.strings 512 ⟨List.replicate 10 msg60⟩ =
      Except.ok [frameOf (List.replicate 8 msg60), frameOf (List.replicate 2 msg60)] ∧
    utf8Len (Message.string msg60) = 60 ∧
    utf8Len (frameOf (List.replicate 8 msg60)) = 480 ∧
    utf8Len (frameOf (List.replicate 2 msg60)) = 120 := by
  decide

/-- C10: `Reply::strings` takes `&self`: the receiver after the call is
unchanged and a repeated call returns the same value. -/
theorem strings_pure (B : Nat) (r : Reply) :
    (Reply.stringsM B r).2 = r ∧
    (Reply.stringsM B ((Reply.stringsM B r).2)).1 = (Reply.stringsM B r).1 :=
  ⟨rfl, rfl⟩

theorem message_roundtrip_witness :
    (Message.from_string
        ((Message.string ⟨str ("CMD"), [str ("a"), str ("b")], str ("nick")⟩).dropLast.dropLast)).command =
      str ("CMD") ∧
    (Message.from_string
        ((Message.string ⟨str ("CMD"), [str ("a"), str ("b")], str ("nick")⟩).dropLast.dropLast)).parameters =
      [str ("a"), str ("b")] :=
  message_roundtrip ⟨str ("CMD"), [str ("a"), str ("b")], str ("nick")⟩
    (by decide) (by decide) (by decide) (by decide)
    (by
      intro l hl hsp
      injection hl with h
      subst h
      decide)

theorem firstZero_le (l : List Nat) : firstZero l ≤ l.length := by
  induction l with
  | nil => simp [firstZero]
  | cons c rest ih =>
    unfold firstZero
    split
    · simp
    · simp
      omega

theorem firstZero_before (l : List Nat) :
    ∀ j, j < firstZero l → l.getD j 0 ≠ 0 := by
  induction l with
  | nil => intro j hj; simp [firstZero] at hj
  | cons c rest ih =>
    intro j hj
    unfold firstZero at hj
    by_cases hc : c = 0
    · simp [hc] at hj
    · rw [if_neg hc] at hj
      cases j with
      | zero => simpa using hc
      | succ j =>
        simp only [List.getD_cons_succ]
        exact ih j (by omega)

theorem firstZero_at (l : List Nat) :
    firstZero l < l.length → l.getD (firstZero l) 0 = 0 := by
  induction l with
  | nil => intro h; simp at h
  | cons c rest ih =>
    intro h
    unfold firstZero at h ⊢
    by_cases hc : c = 0
    · simp [hc]
    · rw [if_neg hc] at h ⊢
      simp only [List.getD_cons_succ]
      exact ih (by simpa using h)

theorem firstZero_of_no_zero (l : List Nat) (h : ∀ x ∈ l, x ≠ 0) :
    firstZero l = l.length := by
  induction l with
  | nil => rfl
  | cons c rest ih =>
    have hc : c ≠ 0 := h c (List.mem_cons_self c rest)
    have hr : ∀ x ∈ rest, x ≠ 0 := fun x hx => h x (List.mem_cons_of_mem c hx)
    simp [firstZero, hc, ih hr]

theorem sizeM_data (r : Request) : (Request.sizeM r).2.data = r.data := by
  unfold Request.sizeM
  split <;> rfl

/-- C5: with the size cache unset, `Request::size` returns the offset of
the first zero byte of the buffer (every byte before it is non-zero, the
byte at it — if any — is zero), or the full capacity when the buffer has
no zero byte; the computed value is cached (a second call returns the
same value and state), any request with a non-zero cache is answered
from the cache without rescanning, and `Request::clear_data` resets the
cache. -/
theorem request_size_spec (r : Request) (h : r.size = 0) :
    ((∀ j, j < (Request.sizeM r).1 → r.data.getD j 0 ≠ 0) ∧
      ((Request.sizeM r).1 < r.data.length → r.data.getD (Request.sizeM r).1 0 = 0) ∧
      (Request.sizeM r).1 ≤ r.data.length ∧
      ((∀ x ∈ r.data, x ≠ 0) → (Request.sizeM r).1 = r.data.length)) ∧
    Request.sizeM ((Request.sizeM r).2) = Request.sizeM r ∧
    (∀ q : Request, q.size ≠ 0 → Request.sizeM q = (q.size, q)) ∧
    (Request.clear_data ((Request.sizeM r).2)).size = 0 := by
  have hfst : (Request.sizeM r).1 = firstZero r.data := by
    unfold Request.sizeM
    rw [if_pos h]
  refine ⟨⟨?_, ?_, ?_, ?_⟩, ?_, ?_, rfl⟩
  · rw [hfst]
    exact firstZero_before r.data
  · rw [hfst]
    exact firstZero_at r.data
  · rw [hfst]
    exact firstZero_le r.data
  · intro hz
    rw [hfst]
    exact firstZero_of_no_zero r.data hz
  · unfold Request.sizeM
    rw [if_pos h]
    by_cases hz : firstZero r.data = 0
    · simp [hz, h]
    · simp [hz, h]
  · intro q hq
    unfold Request.sizeM
    rw [if_neg hq]

theorem request_size_spec_witness :
    (Request.mk [5, 0, 7] [] 0).size = 0 ∧
    (((∀ j, j < (Request.sizeM ⟨[5, 0, 7], [], 0⟩).1 →
        (Request.mk [5, 0, 7] [] 0).data.getD j 0 ≠ 0) ∧
      ((Request.sizeM ⟨[5, 0, 7], [], 0⟩).1 < (Request.mk [5, 0, 7] [] 0).data.length →
        (Request.mk [5, 0, 7] [] 0).data.getD (Request.sizeM ⟨[5, 0, 7], [], 0⟩).1 0 = 0) ∧
      (Request.sizeM ⟨[5, 0, 7], [], 0⟩).1 ≤ (Request.mk [5, 0, 7] [] 0).data.length ∧
      ((∀ x ∈ (Request.mk [5, 0, 7] [] 0).data, x ≠ 0) →
        (Request.sizeM ⟨[5, 0, 7], [], 0⟩).1 = (Request.mk [5, 0, 7] [] 0).data.length)) ∧
    Request.sizeM ((Request.sizeM ⟨[5, 0, 7], [], 0⟩).2) = Request.sizeM ⟨[5, 0, 7], [], 0⟩ ∧
    (∀ q : Request, q.size ≠ 0 → Request.sizeM q = (q.size, q)) ∧
    (Request.clear_data ((Request.sizeM ⟨[5, 0, 7], [], 0⟩).2)).size = 0) :=
  ⟨rfl, request_size_spec ⟨[5, 0, 7], [], 0⟩ rfl⟩

/-- C4: `Request::valid` is true exactly when the logical size (as
`Request::size` reports it) exceeds 2 and the two buffer bytes
immediately before the logical size are CR (13) then LF (10); in
particular it is false whenever the logical size is at most 2 (empty,
1-byte and 2-byte buffers). -/
theorem request_valid_iff (r : Request) :
    ((Request.valid r).1 = true ↔
      2 < (Request.sizeM r).1 ∧
      r.data.getD ((Request.sizeM r).1 - 2) 0 = 13 ∧
      r.data.getD ((Request.sizeM r).1 - 1) 0 = 10) ∧
    ((Request.sizeM r).1 ≤ 2 → (Request.valid r).1 = false) := by
  constructor
  · unfold Request.valid
    rw [sizeM_data r]
    simp only [Bool.and_eq_true, decide_eq_true_eq]
    tauto
  · intro hle
    have hnot : ¬(2 < (Request.sizeM r).1) := by omega
    unfold Request.valid
    simp [hnot]

theorem request_valid_iff_witness :
    ((Request.valid ⟨[65, 13, 10, 0], [], 0⟩).1 = true ↔
      2 < (Request.sizeM ⟨[65, 13, 10, 0], [], 0⟩).1 ∧
      (Request.mk [65, 13, 10, 0] [] 0).data.getD
        ((Request.sizeM ⟨[65, 13, 10, 0], [], 0⟩).1 - 2) 0 = 13 ∧
      (Request.mk [65, 13, 10, 0] [] 0).data.getD
        ((Request.sizeM ⟨[65, 13, 10, 0], [], 0⟩).1 - 1) 0 = 10) ∧
    ((Request.sizeM ⟨[65, 13, 10, 0], [], 0⟩).1 ≤ 2 →
      (Request.valid ⟨[65, 13, 10, 0], [], 0⟩).1 = false) :=
  request_valid_iff ⟨[65, 13, 10, 0], [], 0⟩

/-- C8: when the meaningful bytes of the receive buffer are not valid UTF-8,
`Request::string` returns the empty string (not an error), and with an
empty parsed-message cache `Request::messages` consequently yields no
messages. -/
theorem request_decode_failure (r : Request)
    (hc : r.messages = [])
    (hd : utf8Decode (r.data.take (Request.sizeM r).1) = none) :
    (Request.stringM r).1 = [] ∧ (Request.messagesM r).1 = [] := by
  have hstr : (Request.stringM r).1 = [] := by
    unfold Request.stringM
    rw [sizeM_data r, hd]
  refine ⟨hstr, ?_⟩
  unfold Request.messagesM
  simp [hc, hstr, splitCRLF]

theorem request_decode_failure_witness :
    (Request.mk [255, 13, 10, 0] [] 0).messages = [] ∧
    utf8Decode ((Request.mk [255, 13, 10, 0] [] 0).data.take
      (Request.sizeM ⟨[255, 13, 10, 0], [], 0⟩).1) = none ∧
    (Request.stringM ⟨[255, 13, 10, 0], [], 0⟩).1 = [] ∧
    (Request.messagesM ⟨[255, 13, 10, 0], [], 0⟩).1 = [] :=
  ⟨rfl, by decide, request_decode_failure ⟨[255, 13, 10, 0], [], 0⟩ rfl (by decide)⟩
